import Mathlib

/-!
Verification of the toggle-vault change-detection and versioning engine.

The definitions below are a shallow embedding of the Go sources:
  * `internal/diff/diff.go`   — the diff engine (`Compare`, `generateLineDiff`),
  * `internal/store`          — the version ledger (`SQLiteStore` over `files` and
                                `versions` tables),
  * `internal/blob`           — the multi-storage-account blob client
                                (`Client.ListBlobs` with per-scope error skipping),
  * `internal/syncer`         — the scan cycle (`sync`, `processBlob`,
                                `handleNewFile`, `handleModifiedFile`, `checkDeleted`),
  * `internal/api/handlers.go` — the restore handler (`handleRestore`).

Modelling conventions:
  * SQL rows are Lean structures; a table is a `List` of rows in insertion order.
    Since `captured_at` timestamps are assigned monotonically (`time.Now()` at
    insertion, `AUTOINCREMENT` ids), the append order of the `versions` list
    models the `ORDER BY captured_at` order used by the queries, and
    `GetLatestVersion` is the last appended version of the file.
  * The SHA-256 content hash is an abstract function `hash : String → String`;
    the code only ever compares hash values for equality.
  * Store write statements can fail at runtime (SQLite I/O errors).  The Go code
    checks each error separately; the `Faults` record injects such failures so
    that the error-handling paths of the syncer are part of the model.
    Read-only statements aborting a step before any write are omitted: they
    leave the ledger unchanged by construction.
  * `ListFiles` orders rows by `blob_path`; the model iterates `checkDeleted`
    in stored row order.  Each iteration only touches the rows and versions of
    the file it inspects, so the resulting state does not depend on the order.
  * The store state carries the connection's `last_insert_rowid`
    (`lastInsertRowId`): SQLite updates it on every genuine `INSERT` (into
    either table) and leaves it untouched when an
    `INSERT ... ON CONFLICT DO UPDATE` takes the update branch.  `UpsertFile`
    reads it through `result.LastInsertId()` — which the driver reports
    without error — for its id fix-up, so that fix-up is modelled faithfully,
    stale value included.  The model is one connection, matching the
    single-writer syncer.
-/

/-! ## Diff engine (`internal/diff/diff.go`) -/

/-- Classification of a block produced by the diff algorithm
(`diffmatchpatch.Diff.Type`). -/
inductive DiffOpType where
  | equal
  | delete
  | insert
deriving DecidableEq, Repr

/-- One block of the edit script returned by the diff algorithm
(`diffmatchpatch.Diff`): a type together with the text of the block. -/
structure DiffOp where
  type : DiffOpType
  text : String
deriving DecidableEq, Repr

/-- Type of a single line of the structured diff (`DiffLineType`). -/
inductive DiffLineType where
  | context
  | added
  | removed
deriving DecidableEq, Repr

/-- One line of the structured diff (`DiffLine`).  Go leaves the counter of the
absent side at its zero value (`omitempty`), modelled as `0`. -/
structure DiffLine where
  type : DiffLineType
  oldLineNum : Nat
  newLineNum : Nat
  content : String
deriving DecidableEq, Repr

/-- Summary statistics of a diff (`DiffStats`). -/
structure DiffStats where
  linesAdded : Nat
  linesRemoved : Nat
  linesChanged : Nat
deriving DecidableEq, Repr

/-- Result of comparing two text contents (`DiffResult`). -/
structure DiffResult where
  unifiedDiff : String
  lines : List DiffLine
  stats : DiffStats
  hasChanges : Bool
deriving DecidableEq, Repr

/-- Splitting of one diff block into lines, as done at the top of both
`generateUnifiedDiff` and `generateLineDiff`: `strings.Split(text, "\n")`
followed by dropping an empty last element. -/
def opLines (text : String) : List String :=
  let lines := text.splitOn "\n"
  if lines.getLast? = some "" then lines.dropLast else lines

/-- Accumulator of the `generateLineDiff` loop: emitted lines, running
statistics, and the two 1-based line counters. -/
structure LineDiffAcc where
  lines : List DiffLine
  stats : DiffStats
  oldNum : Nat
  newNum : Nat
deriving Repr

/-- Body of the inner loop of `generateLineDiff`: emit one line of the given
block type and advance the matching counters and statistics. -/
def emitLine (t : DiffOpType) (acc : LineDiffAcc) (content : String) : LineDiffAcc :=
  match t with
  | .equal =>
      { acc with
        lines := acc.lines ++ [⟨.context, acc.oldNum, acc.newNum, content⟩],
        oldNum := acc.oldNum + 1, newNum := acc.newNum + 1 }
  | .delete =>
      { acc with
        lines := acc.lines ++ [⟨.removed, acc.oldNum, 0, content⟩],
        oldNum := acc.oldNum + 1,
        stats := { acc.stats with linesRemoved := acc.stats.linesRemoved + 1 } }
  | .insert =>
      { acc with
        lines := acc.lines ++ [⟨.added, 0, acc.newNum, content⟩],
        newNum := acc.newNum + 1,
        stats := { acc.stats with linesAdded := acc.stats.linesAdded + 1 } }

/-- Structured line-by-line diff (`generateLineDiff`): walk the blocks, emit one
`DiffLine` per line, then set `lines_changed = min(added, removed)`. -/
def generateLineDiff (diffs : List DiffOp) : List DiffLine × DiffStats :=
  let acc := diffs.foldl (fun a d => (opLines d.text).foldl (emitLine d.type) a)
    ⟨[], ⟨0, 0, 0⟩, 1, 1⟩
  (acc.lines, { acc.stats with
                 linesChanged := min acc.stats.linesAdded acc.stats.linesRemoved })

/-- Plain-text unified diff rendering (`generateUnifiedDiff`). -/
def generateUnifiedDiff (diffs : List DiffOp) : String :=
  "--- old\n+++ new\n" ++
    String.join (diffs.map fun d =>
      String.join ((opLines d.text).map fun line =>
        match d.type with
        | .equal => " " ++ line ++ "\n"
        | .delete => "-" ++ line ++ "\n"
        | .insert => "+" ++ line ++ "\n"))

/-- Diff between two text contents (`Compare`).  The line-mode edit-script
computation (`DiffLinesToChars` / `DiffMain` / `DiffCharsToLines` /
`DiffCleanupSemantic`, all from the external `go-diff` dependency) is the
parameter `algo`; byte-identical inputs short-circuit before it is consulted. -/
def Compare (algo : String → String → List DiffOp) (oldContent newContent : String) :
    DiffResult :=
  if oldContent == newContent then
    { unifiedDiff := "", lines := [], stats := ⟨0, 0, 0⟩, hasChanges := false }
  else
    let diffs := algo oldContent newContent
    let ld := generateLineDiff diffs
    { unifiedDiff := generateUnifiedDiff diffs,
      lines := ld.1, stats := ld.2, hasChanges := true }

/-- Count of structured diff lines of one type. -/
def countLines (lines : List DiffLine) (t : DiffLineType) : Nat :=
  (lines.filter (fun l => l.type = t)).length

/-! ## Spec model of the line-diff algorithm

The edit-script computation used by `Compare` lives in the external
`github.com/sergi/go-diff/diffmatchpatch` dependency, whose source is not part
of this repository. -/

/-- One line-granularity operation of an edit script. -/
inductive LineOp where
  | equal (line : String)
  | delete (line : String)
  | insert (line : String)
deriving DecidableEq, Repr

/-- Modelled from the spec: length of a longest common subsequence of two line
sequences, the quantity maximised by the "longest-common-subsequence–style
algorithm" of §4.3 that the missing `diffmatchpatch` dependency implements. -/
def lcsLen : List String → List String → Nat
  | [], _ => 0
  | _ :: _, [] => 0
  | a :: as, b :: bs =>
      if a = b then lcsLen as bs + 1
      else max (lcsLen as (b :: bs)) (lcsLen (a :: as) bs)

/-- Modelled from the spec: "compute a minimal edit script (equal/insert/delete
operations) between the two line sequences" (§4.3); stands in for the missing
`diffmatchpatch` dependency.  The script keeps a longest common subsequence as
`equal` operations and emits `delete`/`insert` for the rest. -/
def editScript : List String → List String → List LineOp
  | [], bs => bs.map .insert
  | a :: as, [] => (a :: as).map .delete
  | a :: as, b :: bs =>
      if a = b then .equal a :: editScript as bs
      else if lcsLen (a :: as) bs ≤ lcsLen as (b :: bs) then
        .delete a :: editScript as (b :: bs)
      else
        .insert b :: editScript (a :: as) bs

/-- Number of `insert` operations of an edit script. -/
def countInsert (script : List LineOp) : Nat :=
  (script.filter fun op => match op with | .insert _ => true | _ => false).length

/-- Number of `delete` operations of an edit script. -/
def countDelete (script : List LineOp) : Nat :=
  (script.filter fun op => match op with | .delete _ => true | _ => false).length

/-- Expansion of a line-granularity edit script into the ordered `DiffLine`
sequence, carrying the two independent 1-based line counters (§4.3). -/
def expandScript : List LineOp → Nat → Nat → List DiffLine
  | [], _, _ => []
  | .equal s :: rest, o, n => ⟨.context, o, n, s⟩ :: expandScript rest (o + 1) (n + 1)
  | .delete s :: rest, o, n => ⟨.removed, o, 0, s⟩ :: expandScript rest (o + 1) n
  | .insert s :: rest, o, n => ⟨.added, 0, n, s⟩ :: expandScript rest o (n + 1)

/-- Modelled from the spec: the diff function of §4.3 with the missing
`diffmatchpatch` edit-script computation replaced by the minimal LCS edit
script `editScript`.  The byte-identical short-circuit, the line splitting and
the statistics follow `Compare`/`generateLineDiff`. -/
def diffSpec (oldText newText : String) : DiffResult :=
  if oldText == newText then
    { unifiedDiff := "", lines := [], stats := ⟨0, 0, 0⟩, hasChanges := false }
  else
    let script := editScript (opLines oldText) (opLines newText)
    let added := countInsert script
    let removed := countDelete script
    { unifiedDiff := "", lines := expandScript script 1 1,
      stats := ⟨added, removed, min added removed⟩, hasChanges := true }

/-! ## Version ledger (`internal/store`) -/

/-- Classification of a change (`store.ChangeType`). -/
inductive ChangeType where
  | created
  | modified
  | deleted
deriving DecidableEq, Repr

/-- One row of the `files` table (`store.File`).  `lastModified` is an abstract
timestamp. -/
structure File where
  id : Nat
  blobPath : String
  etag : String
  contentHash : String
  lastModified : Nat
  isDeleted : Bool
deriving DecidableEq, Repr

/-- One row of the `versions` table (`store.Version`).  The append order of the
`versions` list models the `captured_at` order (timestamps are taken at
insertion time and ids autoincrement). -/
structure Version where
  id : Nat
  fileId : Nat
  content : String
  contentHash : String
  changeType : ChangeType
  blobETag : String
  blobLastModified : Nat
deriving DecidableEq, Repr

/-- The SQLite database state: both tables in insertion order, the two
`AUTOINCREMENT` counters, and the connection's `last_insert_rowid`
(`sqlite3_last_insert_rowid`) — the rowid of the last genuine `INSERT` on the
connection, from either table; 0 before any insert. -/
structure StoreState where
  files : List File
  versions : List Version
  nextFileId : Nat
  nextVersionId : Nat
  lastInsertRowId : Nat
deriving DecidableEq, Repr

/-- A freshly migrated database on a fresh connection. -/
def StoreState.empty : StoreState := ⟨[], [], 1, 1, 0⟩

/-- Lookup of the row with a given `blob_path` (`SELECT ... WHERE blob_path = ?`;
the column is UNIQUE, so the first match is the row). -/
def getFileIn : List File → String → Option File
  | [], _ => none
  | f :: fs, p => if f.blobPath = p then some f else getFileIn fs p

/-- `SQLiteStore.GetFile`. -/
def StoreState.getFile (st : StoreState) (p : String) : Option File :=
  getFileIn st.files p

/-- `UPDATE files SET ... WHERE blob_path = ?`: rewrite every row whose path
matches. -/
def updFiles (files : List File) (p : String) (u : File → File) : List File :=
  files.map fun f => if f.blobPath = p then u f else f

/-- `SQLiteStore.UpsertFile`: `INSERT ... ON CONFLICT(blob_path) DO UPDATE` of
every column except `id` and `blob_path`, followed by the id fix-up the Go
code runs when `file.ID == 0`: it takes `result.LastInsertId()`, which the
SQLite driver reports without error as the connection's `last_insert_rowid`.
The `DO UPDATE` branch does **not** refresh that value, so on an update the
fix-up reads the stale rowid of the last genuine insert (possibly a
`versions` rowid); only when it is 0 (no insert yet on this connection) does
the `GetFile` fallback run and resolve the true row id.  Returns the `File`
as the Go caller sees it after the fix-up, together with the new state (the
table row itself always keeps its real id). -/
def StoreState.upsertFile (st : StoreState) (file : File) : File × StoreState :=
  match getFileIn st.files file.blobPath with
  | some g =>
      ({ file with id :=
           if file.id == 0 then
             (if st.lastInsertRowId > 0 then st.lastInsertRowId else g.id)
           else file.id },
       { st with files := updFiles st.files file.blobPath fun _ => { file with id := g.id } })
  | none =>
      ({ file with id := if file.id == 0 then st.nextFileId else file.id },
       { st with files := st.files ++ [{ file with id := st.nextFileId }],
                 nextFileId := st.nextFileId + 1,
                 lastInsertRowId := st.nextFileId })

/-- `SQLiteStore.MarkFileDeleted`: `UPDATE files SET is_deleted = TRUE WHERE
blob_path = ?`. -/
def StoreState.markFileDeleted (st : StoreState) (p : String) : StoreState :=
  { st with files := updFiles st.files p fun f => { f with isDeleted := true } }

/-- `SQLiteStore.CreateVersion`: append-only insert assigning the next id
(and, being a genuine insert, refreshing the connection's
`last_insert_rowid`, which is how `version.ID` is then read back). -/
def StoreState.createVersion (st : StoreState) (v : Version) : Version × StoreState :=
  let created : Version := { v with id := st.nextVersionId }
  (created,
   { st with versions := st.versions ++ [created],
             nextVersionId := st.nextVersionId + 1,
             lastInsertRowId := st.nextVersionId })

/-- All versions of one file, in capture order (`WHERE file_id = ?`). -/
def versionsFor (vers : List Version) (fileId : Nat) : List Version :=
  vers.filter fun v => v.fileId = fileId

/-- `SQLiteStore.GetLatestVersion`: `ORDER BY captured_at DESC LIMIT 1`, i.e.
the last appended version of the file. -/
def StoreState.getLatestVersion (st : StoreState) (fileId : Nat) : Option Version :=
  (versionsFor st.versions fileId).getLast?

/-- Lookup of a version by id (`SELECT ... FROM versions WHERE id = ?`). -/
def getVersionIn : List Version → Nat → Option Version
  | [], _ => none
  | v :: vs, i => if v.id = i then some v else getVersionIn vs i

/-- `SQLiteStore.GetVersion`. -/
def StoreState.getVersion (st : StoreState) (id : Nat) : Option Version :=
  getVersionIn st.versions id

/-- `SQLiteStore.ListFiles` as consumed by `checkDeleted` (only the `File`
columns are read there; see the file-level note on row order). -/
def StoreState.listFiles (st : StoreState) : List File := st.files

/-! ## Object source adapter (`internal/blob`) -/

/-- Metadata and upstream state of one remote blob during a cycle: identity and
change token as returned by the listing (`blob.BlobInfo`), together with the
object bytes the download would return (`blob.BlobContent.Content`; the listing
and the fetch see the same upstream state within the modelled cycle) and
whether `GetBlob` succeeds for it (`fetchOk`). -/
structure BlobEntry where
  storageAccount : String
  container : String
  path : String
  etag : String
  lastModified : Nat
  content : String
  fetchOk : Bool
deriving DecidableEq, Repr

/-- `BlobInfo.FullPath`: `storageaccount/container/path`, the canonical path. -/
def BlobEntry.fullPath (b : BlobEntry) : String :=
  b.storageAccount ++ "/" ++ b.container ++ "/" ++ b.path

/-- One container of a storage account as seen by a cycle's enumeration:
whether `ListBlobsInContainer` succeeds, and the blobs it reports if so. -/
structure ContainerListing where
  name : String
  ok : Bool
  blobs : List BlobEntry
deriving DecidableEq, Repr

/-- One configured storage account as seen by a cycle's enumeration: whether
the account-level enumeration (`GetContainersToScan`) succeeds, and the
containers it reports if so. -/
structure AccountListing where
  name : String
  ok : Bool
  containers : List ContainerListing
deriving DecidableEq, Repr

/-- `StorageAccountClient.ListBlobs`: fails if the account-level enumeration
fails; otherwise walks the containers, skipping (with only a log line) every
container whose listing fails, and concatenates the rest. -/
def AccountListing.listBlobs (a : AccountListing) : Option (List BlobEntry) :=
  if a.ok then
    some (a.containers.foldl (fun acc c => if c.ok then acc ++ c.blobs else acc) [])
  else none

/-- `Client.ListBlobs` (multi-account): walks all storage accounts, skipping
(with only a log line) every account whose enumeration fails, and concatenates
the rest.  Note that it never returns an error. -/
def clientListBlobs (accounts : List AccountListing) : List BlobEntry :=
  accounts.foldl
    (fun acc a =>
      match a.listBlobs with
      | some bs => acc ++ bs
      | none => acc)
    []

/-! ## Scanner (`internal/syncer`) -/

/-- Injected runtime failures of the ledger write/read statements the syncer
error-checks: `UpsertFile` (by path), `CreateVersion` (by owning file id),
`GetLatestVersion` (by file id) and `MarkFileDeleted` (by path). -/
structure Faults where
  upsert : String → Bool
  createV : Nat → Bool
  latestV : Nat → Bool
  markDel : String → Bool

/-- A run in which every ledger statement succeeds. -/
def Faults.noFaults : Faults :=
  ⟨fun _ => false, fun _ => false, fun _ => false, fun _ => false⟩

/-- The file row `handleNewFile` builds before upserting it (`store.File`
literal in the Go code; the id is assigned by the store). -/
def newFileRow (hash : String → String) (b : BlobEntry) : File :=
  { id := 0, blobPath := b.fullPath, etag := b.etag,
    contentHash := hash b.content, lastModified := b.lastModified,
    isDeleted := false }

/-- The `created` version row `handleNewFile` appends (id assigned by the
store). -/
def createdVersionRow (hash : String → String) (b : BlobEntry) (fid : Nat) : Version :=
  { id := 0, fileId := fid, content := b.content, contentHash := hash b.content,
    changeType := .created, blobETag := b.etag, blobLastModified := b.lastModified }

/-- The `modified` version row `handleModifiedFile` appends. -/
def modifiedVersionRow (hash : String → String) (b : BlobEntry) (fid : Nat) : Version :=
  { id := 0, fileId := fid, content := b.content, contentHash := hash b.content,
    changeType := .modified, blobETag := b.etag, blobLastModified := b.lastModified }

/-- `Syncer.handleNewFile`: download the content (abort on fetch failure),
upsert the file row with `is_deleted=false`, then append the initial `created`
version for the id the upsert resolved.  An error from either statement aborts
the remainder of the step. -/
def handleNewFile (hash : String → String) (fl : Faults) (b : BlobEntry)
    (st : StoreState) : StoreState :=
  if !b.fetchOk then st
  else if fl.upsert b.fullPath then st
  else if fl.createV (st.upsertFile (newFileRow hash b)).1.id then
    (st.upsertFile (newFileRow hash b)).2
  else
    ((st.upsertFile (newFileRow hash b)).2.createVersion
      (createdVersionRow hash b (st.upsertFile (newFileRow hash b)).1.id)).2

/-- `Syncer.handleModifiedFile`: download the content (abort on fetch failure);
if the content hash is unchanged update only token and timestamp, otherwise
append a `modified` version and then update the file row (an error from a
statement skips the statements after it). -/
def handleModifiedFile (hash : String → String) (fl : Faults) (b : BlobEntry)
    (existing : File) (st : StoreState) : StoreState :=
  if !b.fetchOk then st
  else if hash b.content = existing.contentHash then
    if fl.upsert existing.blobPath then st
    else (st.upsertFile { existing with etag := b.etag, lastModified := b.lastModified }).2
  else if fl.createV existing.id then st
  else if fl.upsert existing.blobPath then
    (st.createVersion (modifiedVersionRow hash b existing.id)).2
  else
    (((st.createVersion (modifiedVersionRow hash b existing.id)).2).upsertFile
      { existing with etag := b.etag, contentHash := hash b.content,
                      lastModified := b.lastModified }).2

/-- `Syncer.processBlob`: classify one listed blob against the ledger. -/
def processBlob (hash : String → String) (fl : Faults) (b : BlobEntry)
    (st : StoreState) : StoreState :=
  match st.getFile b.fullPath with
  | none => handleNewFile hash fl b st
  | some existing =>
      if existing.isDeleted then handleNewFile hash fl b st
      else if existing.etag = b.etag then st
      else handleModifiedFile hash fl b existing st

/-- The `deleted` version row `checkDeleted` appends: empty content, and the
content hash of the latest stored version of the file if there is one. -/
def deletedVersionRow (st : StoreState) (fid : Nat) : Version :=
  { id := 0, fileId := fid, content := "",
    contentHash := match st.getLatestVersion fid with
                   | some lv => lv.contentHash
                   | none => "",
    changeType := .deleted, blobETag := "", blobLastModified := 0 }

/-- Body of the `Syncer.checkDeleted` loop for one file row of the snapshot:
skip already-deleted rows and rows seen in the current listing; otherwise fetch
the latest version (skipping the file if that fails), append a `deleted`
version with empty content carrying the last known content hash (skipping the
file if the insert fails), and finally mark the row deleted (an error there is
only logged). -/
def checkDeletedOne (fl : Faults) (seen : List String) (st : StoreState)
    (f : File) : StoreState :=
  if f.isDeleted then st
  else if f.blobPath ∈ seen then st
  else if fl.latestV f.id then st
  else if fl.createV f.id then st
  else if fl.markDel f.blobPath then (st.createVersion (deletedVersionRow st f.id)).2
  else ((st.createVersion (deletedVersionRow st f.id)).2).markFileDeleted f.blobPath

/-- `Syncer.checkDeleted`: walk a snapshot of the tracked files against the set
of canonical paths seen in this cycle's listing. -/
def checkDeleted (fl : Faults) (seen : List String) (st : StoreState) : StoreState :=
  st.listFiles.foldl (checkDeletedOne fl seen) st

/-- `Syncer.sync`: one scan cycle.  `Client.ListBlobs` never returns an error
(failed scopes are silently skipped), so the error return in the Go code is
unreachable; every listed path enters `seenPaths` before `processBlob` runs,
and a `processBlob` error only skips that blob. -/
def sync (hash : String → String) (fl : Faults) (accounts : List AccountListing)
    (st : StoreState) : StoreState :=
  let blobs := clientListBlobs accounts
  let seen := blobs.map BlobEntry.fullPath
  let st1 := blobs.foldl (fun s b => processBlob hash fl b s) st
  checkDeleted fl seen st1

/-! ## Restore handler (`internal/api/handlers.go`, `Server.handleRestore`) -/

/-- HTTP outcome of the restore handler. -/
inductive RestoreStatus where
  | badRequest
  | notFound
  | serverError
  | ok
deriving DecidableEq, Repr

/-- Result of a restore call: the HTTP outcome, the ledger state afterwards,
and the upload performed against blob storage (`UploadBlobByFullPath` full path
and content), if any. -/
structure RestoreOutcome where
  status : RestoreStatus
  store : StoreState
  upload : Option (String × String)
deriving DecidableEq, Repr

/-- `Server.handleRestore`: validate the inputs (`versionId = none` models an
unparsable version id), look the version up (404 when absent, 500 when the
query fails), and upload its content bytes to blob storage at the requested
path.  The ledger is only read, never written. -/
def handleRestore (st : StoreState) (path : String) (versionId : Option Nat)
    (getVersionFails uploadOk : Bool) : RestoreOutcome :=
  if path = "" then ⟨.badRequest, st, none⟩
  else
    match versionId with
    | none => ⟨.badRequest, st, none⟩
    | some vid =>
      if getVersionFails then ⟨.serverError, st, none⟩
      else
        match st.getVersion vid with
        | none => ⟨.notFound, st, none⟩
        | some v =>
          if uploadOk then ⟨.ok, st, some (path, v.content)⟩
          else ⟨.serverError, st, none⟩

/-! ## Well-formedness of the ledger state -/

/-- The SQL keys of a `files` row: `blob_path` is UNIQUE and `id` is the
primary key. -/
def fileKey (f : File) : String × Nat := (f.blobPath, f.id)

/-- Distinctness of two row keys in both components. -/
def KeysDistinct (a b : String × Nat) : Prop :=
  a.1 ≠ b.1 ∧ a.2 ≠ b.2

instance (a b : String × Nat) : Decidable (KeysDistinct a b) := by
  unfold KeysDistinct; infer_instance

/-- Well-formedness of a database state: every row id is below the
`AUTOINCREMENT` counter and row keys are pairwise distinct.  `StoreState.empty`
satisfies it and every ledger operation preserves it. -/
def StoreState.WF (st : StoreState) : Prop :=
  (∀ g ∈ st.files, g.id < st.nextFileId) ∧
  (st.files.map fileKey).Pairwise KeysDistinct

instance (st : StoreState) : Decidable st.WF := by
  unfold StoreState.WF; infer_instance

/-! ## Concrete cycle inputs used by the claim evaluations -/

/-- Concrete stand-in for the SHA-256 hex digest used when evaluating the model
on concrete inputs. -/
def idHash : String → String := fun s => s

/-- A tracked, non-deleted file whose canonical path lives in storage account
`acct`. -/
def c1File : File := ⟨1, "acct/cfg/app.yaml", "e1", "h1", 0, false⟩

/-- Ledger tracking `c1File` with its one `created` version. -/
def c1Store : StoreState :=
  ⟨[c1File], [⟨1, 1, "x: 1\n", "h1", ChangeType.created, "e1", 0⟩], 2, 2, 1⟩

/-- A cycle in which the enumeration of storage account `acct` fails while the
blob itself still exists upstream. -/
def c1Accounts : List AccountListing :=
  [⟨"acct", false, [⟨"cfg", true, [⟨"acct", "cfg", "app.yaml", "e1", 0, "x: 1\n", true⟩]⟩]⟩]

/-- A newly appearing blob. -/
def c3Blob : BlobEntry := ⟨"acct", "cfg", "new.yaml", "e1", 0, "x: 1\n", true⟩

/-- A cycle listing exactly `c3Blob`, successfully. -/
def c3Accounts : List AccountListing := [⟨"acct", true, [⟨"cfg", true, [c3Blob]⟩]⟩]

/-- A run in which the `CreateVersion` insert for file id 1 fails after its
`UpsertFile` succeeded. -/
def c3Faults : Faults := { Faults.noFaults with createV := fun fid => fid == 1 }

/-- A tracked file currently marked deleted. -/
def c4File : File := ⟨1, "acct/cfg/app.yaml", "e1", "h1", 5, true⟩

/-- Ledger tracking `c4File` with its `created` and `deleted` history.  The
last ledger write on this connection was the `deleted` version insert, so the
connection's `last_insert_rowid` is that version's rowid, 2 — exactly the
state the long-running syncer is in one cycle after recording the deletion. -/
def c4Store : StoreState :=
  ⟨[c4File],
   [⟨1, 1, "x: 1\n", "h1", ChangeType.created, "e1", 0⟩,
    ⟨2, 1, "", "h1", ChangeType.deleted, "", 0⟩], 2, 3, 2⟩

/-- The deleted file's path reappearing upstream with new content. -/
def c4Blob : BlobEntry := ⟨"acct", "cfg", "app.yaml", "e9", 7, "x: 2\n", true⟩

/-- A cycle listing exactly `c4Blob`, successfully. -/
def c4Accounts : List AccountListing := [⟨"acct", true, [⟨"cfg", true, [c4Blob]⟩]⟩]

/-- A tracked, non-deleted file (content hash under `idHash` is the content). -/
def c5File : File := ⟨1, "acct/cfg/app.yaml", "e1", "x: 1\n", 5, false⟩

/-- Ledger tracking `c5File` with one version. -/
def c5Store : StoreState :=
  ⟨[c5File], [⟨1, 1, "x: 1\n", "x: 1\n", ChangeType.created, "e1", 0⟩], 2, 2, 1⟩

/-- The same object with a changed change token but unchanged content. -/
def c5Blob : BlobEntry := ⟨"acct", "cfg", "app.yaml", "e2", 9, "x: 1\n", true⟩

/-- Ledger tracking one file that is about to disappear from the listing. -/
def c6Store : StoreState :=
  ⟨[⟨1, "a/c/gone.txt", "e0", "g", 0, false⟩],
   [⟨1, 1, "old", "g", ChangeType.created, "e0", 0⟩], 2, 2, 1⟩

/-- A cycle listing one new blob (and no longer the tracked one). -/
def c6Accounts : List AccountListing :=
  [⟨"a", true, [⟨"c", true, [⟨"a", "c", "new.txt", "e1", 1, "n", true⟩]⟩]⟩]

/-- Ledger with one tracked file and one stored version, id 1. -/
def c9Store : StoreState :=
  ⟨[⟨1, "a/c/f.txt", "e1", "h", 0, false⟩],
   [⟨1, 1, "hello", "h", ChangeType.created, "e1", 0⟩], 2, 2, 1⟩

/-- A tracked, non-deleted file about to be classified deleted. -/
def c10File : File := ⟨1, "a/c/f.txt", "e1", "h", 0, false⟩

/-- Ledger tracking `c10File` with one stored version. -/
def c10Store : StoreState :=
  ⟨[c10File], [⟨1, 1, "hello", "h", ChangeType.created, "e1", 0⟩], 2, 2, 1⟩

/-! ## General fold helper -/

/-- Fold induction: a property preserved by every step holds of the result. -/
theorem foldl_induction {α β : Type} (f : β → α → β) (P : β → Prop) :
    ∀ (l : List α) (b : β), P b → (∀ b' a, a ∈ l → P b' → P (f b' a)) →
      P (l.foldl f b) := by
  intro l
  induction l with
  | nil => intro b hb _; exact hb
  | cons a l ih =>
      intro b hb hstep
      exact ih (f b a) (hstep b a (by simp) hb)
        (fun b' a' ha' => hstep b' a' (by simp [ha']))

/-- A fold each of whose steps fixes the state leaves the state unchanged. -/
theorem foldl_fixed {α β : Type} (f : β → α → β) :
    ∀ (l : List α) (b : β), (∀ a ∈ l, f b a = b) → l.foldl f b = b := by
  intro l
  induction l with
  | nil => intro b _; rfl
  | cons a l ih =>
      intro b hfix
      have ha : f b a = b := hfix a (by simp)
      simp only [List.foldl_cons, ha]
      exact ih b (fun a' ha' => hfix a' (by simp [ha']))

/-! ## C2 and C7: diff engine statistics -/

/-- The invariant of the `generateLineDiff` loop: the running statistics count
the emitted lines of each type. -/
def statsMatch (acc : LineDiffAcc) : Prop :=
  acc.stats.linesAdded = countLines acc.lines .added ∧
  acc.stats.linesRemoved = countLines acc.lines .removed

/-- Emitting one line preserves `statsMatch`. -/
theorem emitLine_statsMatch (t : DiffOpType) (acc : LineDiffAcc) (c : String)
    (h : statsMatch acc) : statsMatch (emitLine t acc c) := by
  obtain ⟨h1, h2⟩ := h
  cases t <;>
    simp_all [emitLine, statsMatch, countLines, List.filter_append]

/-- The full `generateLineDiff` accumulator satisfies `statsMatch`. -/
theorem generateLineDiff_statsMatch (diffs : List DiffOp) :
    statsMatch (diffs.foldl (fun a d => (opLines d.text).foldl (emitLine d.type) a)
      ⟨[], ⟨0, 0, 0⟩, 1, 1⟩) := by
  refine foldl_induction _ statsMatch diffs _ ?base ?step
  · constructor <;> simp [countLines]
  · intro acc d _ hacc
    exact foldl_induction _ statsMatch (opLines d.text) acc hacc
      (fun a c _ ha => emitLine_statsMatch d.type a c ha)

/-- The statistics of `generateLineDiff` count its emitted lines, and
`lines_changed` is the minimum of the two counts. -/
theorem generateLineDiff_stats (diffs : List DiffOp) :
    (generateLineDiff diffs).2.linesAdded = countLines (generateLineDiff diffs).1 .added ∧
    (generateLineDiff diffs).2.linesRemoved = countLines (generateLineDiff diffs).1 .removed ∧
    (generateLineDiff diffs).2.linesChanged =
      min (generateLineDiff diffs).2.linesAdded (generateLineDiff diffs).2.linesRemoved := by
  obtain ⟨h1, h2⟩ := generateLineDiff_statsMatch diffs
  refine ⟨?_, ?_, ?_⟩
  · simpa [generateLineDiff] using h1
  · simpa [generateLineDiff] using h2
  · simp [generateLineDiff]

/-- C2: for every text `t`, `Compare` applied to two identical contents
short-circuits to `has_changes = false`, an empty line list and all-zero
statistics, for every behaviour `algo` of the diff algorithm — in particular
the result never depends on the algorithm, which is not invoked. -/
theorem compare_self_no_changes (algo : String → String → List DiffOp) (t : String) :
    Compare algo t t =
      { unifiedDiff := "", lines := [], stats := ⟨0, 0, 0⟩, hasChanges := false } := by
  simp [Compare]

/-- C7: for every pair of input texts and every behaviour of the diff
algorithm, the result of `Compare` satisfies `lines_added` = number of `added`
lines, `lines_removed` = number of `removed` lines, and `lines_changed` =
`min(lines_added, lines_removed)`. -/
theorem compare_stats_count_lines (algo : String → String → List DiffOp)
    (oldContent newContent : String) :
    (Compare algo oldContent newContent).stats.linesAdded =
      countLines (Compare algo oldContent newContent).lines .added ∧
    (Compare algo oldContent newContent).stats.linesRemoved =
      countLines (Compare algo oldContent newContent).lines .removed ∧
    (Compare algo oldContent newContent).stats.linesChanged =
      min (Compare algo oldContent newContent).stats.linesAdded
        (Compare algo oldContent newContent).stats.linesRemoved := by
  by_cases h : oldContent == newContent
  · simp [Compare, h, countLines]
  · have hg := generateLineDiff_stats (algo oldContent newContent)
    simp only [Compare, h, Bool.false_eq_true, if_false]
    exact hg

/-! ## C8: symmetry of the modelled diff -/

/-- An LCS is never longer than the right sequence. -/
theorem lcsLen_le_right : ∀ (a b : List String), lcsLen a b ≤ b.length := by
  intro a
  induction a with
  | nil => intro b; simp [lcsLen]
  | cons x as iha =>
      intro b
      induction b with
      | nil => simp [lcsLen]
      | cons y bs ihb =>
          by_cases hxy : x = y
          · simp only [lcsLen, if_pos hxy, List.length_cons]
            exact Nat.succ_le_succ (iha bs)
          · simp only [lcsLen, if_neg hxy, List.length_cons]
            exact max_le (iha (y :: bs)) (Nat.le_succ_of_le ihb)

/-- An LCS is never longer than the left sequence. -/
theorem lcsLen_le_left : ∀ (a b : List String), lcsLen a b ≤ a.length := by
  intro a
  induction a with
  | nil => intro b; simp [lcsLen]
  | cons x as iha =>
      intro b
      induction b with
      | nil => simp [lcsLen]
      | cons y bs ihb =>
          by_cases hxy : x = y
          · simp only [lcsLen, if_pos hxy, List.length_cons]
            exact Nat.succ_le_succ (iha bs)
          · simp only [lcsLen, if_neg hxy, List.length_cons]
            exact max_le (Nat.le_succ_of_le (iha (y :: bs))) ihb

/-- The LCS length is symmetric in its two arguments. -/
theorem lcsLen_comm : ∀ (a b : List String), lcsLen a b = lcsLen b a := by
  intro a
  induction a with
  | nil => intro b; cases b <;> simp [lcsLen]
  | cons x as iha =>
      intro b
      induction b with
      | nil => simp [lcsLen]
      | cons y bs ihb =>
          by_cases hxy : x = y
          · simp only [lcsLen, if_pos hxy, if_pos hxy.symm]
            rw [iha bs]
          · simp only [lcsLen, if_neg hxy, if_neg (Ne.symm hxy)]
            rw [iha (y :: bs), ihb, Nat.max_comm]

/-- Mapping a sequence to pure insert operations yields that many inserts. -/
theorem countInsert_map_insert (l : List String) :
    countInsert (l.map LineOp.insert) = l.length := by
  induction l with
  | nil => rfl
  | cons a l ih => simpa [countInsert, List.filter_cons] using ih

/-- Pure delete scripts contain no insert operations. -/
theorem countInsert_map_delete (l : List String) :
    countInsert (l.map LineOp.delete) = 0 := by
  induction l with
  | nil => rfl
  | cons a l ih => simp [countInsert, List.filter_cons] at ih ⊢

/-- Mapping a sequence to pure delete operations yields that many deletes. -/
theorem countDelete_map_delete (l : List String) :
    countDelete (l.map LineOp.delete) = l.length := by
  induction l with
  | nil => rfl
  | cons a l ih => simpa [countDelete, List.filter_cons] using ih

/-- Pure insert scripts contain no delete operations. -/
theorem countDelete_map_insert (l : List String) :
    countDelete (l.map LineOp.insert) = 0 := by
  induction l with
  | nil => rfl
  | cons a l ih => simp [countDelete, List.filter_cons] at ih ⊢

/-- Inserts of a cons script, by head operation. -/
theorem countInsert_cons_equal (s : String) (l : List LineOp) :
    countInsert (.equal s :: l) = countInsert l := by
  simp [countInsert, List.filter_cons]

/-- Inserts are unchanged by a leading delete. -/
theorem countInsert_cons_delete (s : String) (l : List LineOp) :
    countInsert (.delete s :: l) = countInsert l := by
  simp [countInsert, List.filter_cons]

/-- A leading insert adds one to the insert count. -/
theorem countInsert_cons_insert (s : String) (l : List LineOp) :
    countInsert (.insert s :: l) = countInsert l + 1 := by
  simp [countInsert, List.filter_cons]

/-- Deletes are unchanged by a leading equal. -/
theorem countDelete_cons_equal (s : String) (l : List LineOp) :
    countDelete (.equal s :: l) = countDelete l := by
  simp [countDelete, List.filter_cons]

/-- A leading delete adds one to the delete count. -/
theorem countDelete_cons_delete (s : String) (l : List LineOp) :
    countDelete (.delete s :: l) = countDelete l + 1 := by
  simp [countDelete, List.filter_cons]

/-- Deletes are unchanged by a leading insert. -/
theorem countDelete_cons_insert (s : String) (l : List LineOp) :
    countDelete (.insert s :: l) = countDelete l := by
  simp [countDelete, List.filter_cons]

/-- The minimal edit script inserts exactly the lines of the new sequence not
covered by the LCS. -/
theorem countInsert_editScript : ∀ (a b : List String),
    countInsert (editScript a b) = b.length - lcsLen a b := by
  intro a
  induction a with
  | nil =>
      intro b
      cases b with
      | nil => simp [editScript, lcsLen, countInsert]
      | cons y bs =>
          simp [editScript, lcsLen, countInsert_cons_insert, countInsert_map_insert]
  | cons x as iha =>
      intro b
      induction b with
      | nil =>
          simp [editScript, lcsLen, countInsert_cons_delete, countInsert_map_delete]
      | cons y bs ihb =>
          by_cases hxy : x = y
          · simp only [editScript, lcsLen, if_pos hxy, countInsert_cons_equal,
              List.length_cons, Nat.succ_sub_succ]
            exact iha bs
          · by_cases hle : lcsLen (x :: as) bs ≤ lcsLen as (y :: bs)
            · simp only [editScript, lcsLen, if_neg hxy, if_pos hle,
                countInsert_cons_delete]
              rw [iha (y :: bs), Nat.max_eq_left hle]
            · simp only [editScript, lcsLen, if_neg hxy, if_neg hle,
                countInsert_cons_insert]
              have hlt : lcsLen as (y :: bs) < lcsLen (x :: as) bs := Nat.not_le.mp hle
              rw [ihb, Nat.max_eq_right (Nat.le_of_lt hlt), List.length_cons]
              have hb : lcsLen (x :: as) bs ≤ bs.length := lcsLen_le_right _ _
              omega

/-- The minimal edit script deletes exactly the lines of the old sequence not
covered by the LCS. -/
theorem countDelete_editScript : ∀ (a b : List String),
    countDelete (editScript a b) = a.length - lcsLen a b := by
  intro a
  induction a with
  | nil =>
      intro b
      cases b with
      | nil => simp [editScript, lcsLen, countDelete]
      | cons y bs =>
          simp [editScript, lcsLen, countDelete_cons_insert, countDelete_map_insert]
  | cons x as iha =>
      intro b
      induction b with
      | nil =>
          simp [editScript, lcsLen, countDelete_cons_delete, countDelete_map_delete]
      | cons y bs ihb =>
          by_cases hxy : x = y
          · simp only [editScript, lcsLen, if_pos hxy, countDelete_cons_equal,
              List.length_cons, Nat.succ_sub_succ]
            exact iha bs
          · by_cases hle : lcsLen (x :: as) bs ≤ lcsLen as (y :: bs)
            · simp only [editScript, lcsLen, if_neg hxy, if_pos hle,
                countDelete_cons_delete]
              rw [iha (y :: bs), Nat.max_eq_left hle, List.length_cons]
              have hb : lcsLen as (y :: bs) ≤ as.length := lcsLen_le_left _ _
              omega
            · simp only [editScript, lcsLen, if_neg hxy, if_neg hle,
                countDelete_cons_insert]
              have hlt : lcsLen as (y :: bs) < lcsLen (x :: as) bs := Nat.not_le.mp hle
              rw [ihb, Nat.max_eq_right (Nat.le_of_lt hlt)]

/-- C8: for every pair of texts, the added-line count of the modelled diff in
one direction equals the removed-line count in the other direction, and vice
versa. -/
theorem diffSpec_symmetry (v1 v2 : String) :
    (diffSpec v1 v2).stats.linesAdded = (diffSpec v2 v1).stats.linesRemoved ∧
    (diffSpec v1 v2).stats.linesRemoved = (diffSpec v2 v1).stats.linesAdded := by
  by_cases h : v1 = v2
  · subst h; simp [diffSpec]
  · have h12 : (v1 == v2) = false := by simpa using h
    have h21 : (v2 == v1) = false := by simpa using Ne.symm h
    simp only [diffSpec, h12, Bool.false_eq_true, if_false, h21]
    constructor
    · rw [countInsert_editScript, countDelete_editScript, lcsLen_comm]
    · rw [countDelete_editScript, countInsert_editScript, lcsLen_comm]

/-! ## Primitive ledger lemmas -/

/-- A successful path lookup returns a row with that path. -/
theorem getFileIn_eq_path : ∀ {files : List File} {p : String} {f : File},
    getFileIn files p = some f → f.blobPath = p := by
  intro files
  induction files with
  | nil => intro p f h; simp [getFileIn] at h
  | cons g fs ih =>
      intro p f h
      by_cases hg : g.blobPath = p
      · simp only [getFileIn, if_pos hg] at h
        cases h; exact hg
      · simp only [getFileIn, if_neg hg] at h
        exact ih h

/-- A successful path lookup returns a member of the table. -/
theorem getFileIn_mem : ∀ {files : List File} {p : String} {f : File},
    getFileIn files p = some f → f ∈ files := by
  intro files
  induction files with
  | nil => intro p f h; simp [getFileIn] at h
  | cons g fs ih =>
      intro p f h
      by_cases hg : g.blobPath = p
      · simp only [getFileIn, if_pos hg] at h
        cases h; exact List.mem_cons_self _ _
      · simp only [getFileIn, if_neg hg] at h
        exact List.mem_cons_of_mem _ (ih h)

/-- A failed path lookup means no row has that path. -/
theorem getFileIn_eq_none : ∀ {files : List File} {p : String},
    getFileIn files p = none → ∀ f ∈ files, f.blobPath ≠ p := by
  intro files
  induction files with
  | nil => intro p _ f hf; simp at hf
  | cons g fs ih =>
      intro p h f hf
      by_cases hg : g.blobPath = p
      · simp [getFileIn, if_pos hg] at h
      · simp only [getFileIn, if_neg hg] at h
        rcases List.mem_cons.mp hf with rfl | hf'
        · exact hg
        · exact ih h f hf'

/-- Updating the rows of one path does not affect lookups of another path, as
long as the update keeps the path of the rows it touches. -/
theorem getFileIn_updFiles_other {files : List File} {p q : String} {u : File → File}
    (hne : p ≠ q) (hu : ∀ f, f.blobPath = q → (u f).blobPath = q) :
    getFileIn (updFiles files q u) p = getFileIn files p := by
  unfold updFiles
  induction files with
  | nil => rfl
  | cons g fs ih =>
      simp only [List.map_cons, getFileIn]
      by_cases hg : g.blobPath = q
      · have hug : (u g).blobPath = q := hu g hg
        rw [if_pos hg]
        have h1 : ¬(u g).blobPath = p := by rw [hug]; exact Ne.symm hne
        have h2 : ¬g.blobPath = p := by rw [hg]; exact Ne.symm hne
        rw [if_neg h1, if_neg h2]
        exact ih
      · rw [if_neg hg]
        by_cases hp : g.blobPath = p
        · rw [if_pos hp, if_pos hp]
        · rw [if_neg hp, if_neg hp]
          exact ih

/-- Looking up the updated path returns the updated row. -/
theorem getFileIn_updFiles_same {files : List File} {q : String} {u : File → File}
    (hu : ∀ f, f.blobPath = q → (u f).blobPath = q) :
    getFileIn (updFiles files q u) q = (getFileIn files q).map u := by
  unfold updFiles
  induction files with
  | nil => rfl
  | cons g fs ih =>
      simp only [List.map_cons, getFileIn]
      by_cases hg : g.blobPath = q
      · have hug : (u g).blobPath = q := hu g hg
        rw [if_pos hg, if_pos hug, if_pos hg]
        rfl
      · rw [if_neg hg, if_neg hg, if_neg hg]
        exact ih

/-- Appending a row of a different path does not affect a lookup. -/
theorem getFileIn_append_ne {files : List File} {p : String} {f' : File}
    (hne : f'.blobPath ≠ p) :
    getFileIn (files ++ [f']) p = getFileIn files p := by
  induction files with
  | nil => simp [getFileIn, if_neg hne]
  | cons g fs ih =>
      by_cases hg : g.blobPath = p
      · simp only [List.cons_append, getFileIn, if_pos hg]
      · simp only [List.cons_append, getFileIn, if_neg hg]
        exact ih

/-- Appending a row of a previously absent path makes lookups return it. -/
theorem getFileIn_append_self {files : List File} {f' : File}
    (hnone : getFileIn files f'.blobPath = none) :
    getFileIn (files ++ [f']) f'.blobPath = some f' := by
  induction files with
  | nil => simp [getFileIn]
  | cons g fs ih =>
      by_cases hg : g.blobPath = f'.blobPath
      · simp [getFileIn, if_pos hg] at hnone
      · simp only [getFileIn, if_neg hg] at hnone
        simp only [List.cons_append, getFileIn, if_neg hg]
        exact ih hnone

/-- Appending a version of the tracked file extends its version list. -/
theorem versionsFor_append_same {vers : List Version} {v : Version} {i : Nat}
    (hv : v.fileId = i) :
    versionsFor (vers ++ [v]) i = versionsFor vers i ++ [v] := by
  simp [versionsFor, List.filter_append, hv]

/-- Appending a version of a different file leaves a version list unchanged. -/
theorem versionsFor_append_other {vers : List Version} {v : Version} {i : Nat}
    (hv : v.fileId ≠ i) :
    versionsFor (vers ++ [v]) i = versionsFor vers i := by
  simp [versionsFor, List.filter_append, hv]

/-! ## Composite ledger-operation lemmas -/

/-- Upserting never touches the versions table or its counter. -/
theorem upsertFile_versions (st : StoreState) (file : File) :
    (st.upsertFile file).2.versions = st.versions ∧
    (st.upsertFile file).2.nextVersionId = st.nextVersionId := by
  unfold StoreState.upsertFile
  cases getFileIn st.files file.blobPath <;> simp

/-- Upserting does not affect lookups of other paths. -/
theorem upsertFile_getFile_other {st : StoreState} {file : File} {p : String}
    (hne : file.blobPath ≠ p) :
    (st.upsertFile file).2.getFile p = st.getFile p := by
  unfold StoreState.upsertFile StoreState.getFile
  cases hg : getFileIn st.files file.blobPath with
  | some g =>
      simp only
      exact getFileIn_updFiles_other (Ne.symm hne) (fun f _ => rfl)
  | none =>
      simp only
      exact getFileIn_append_ne hne

/-- Marking a path deleted does not affect lookups of other paths. -/
theorem markFileDeleted_getFile_other {st : StoreState} {p q : String}
    (hne : p ≠ q) :
    (st.markFileDeleted q).getFile p = st.getFile p := by
  unfold StoreState.markFileDeleted StoreState.getFile
  exact getFileIn_updFiles_other hne (fun f hf => by simp [hf])

/-- Marking a path deleted only flips `is_deleted` on that path's row. -/
theorem markFileDeleted_getFile_same (st : StoreState) (q : String) :
    (st.markFileDeleted q).getFile q =
      (st.getFile q).map (fun f => { f with isDeleted := true }) := by
  unfold StoreState.markFileDeleted StoreState.getFile
  exact getFileIn_updFiles_same (fun f hf => by simp [hf])

/-- Marking a path deleted touches neither versions nor counters. -/
theorem markFileDeleted_versions (st : StoreState) (q : String) :
    (st.markFileDeleted q).versions = st.versions ∧
    (st.markFileDeleted q).nextVersionId = st.nextVersionId ∧
    (st.markFileDeleted q).nextFileId = st.nextFileId :=
  ⟨rfl, rfl, rfl⟩

/-- Appending a version touches no file row. -/
theorem createVersion_getFile (st : StoreState) (v : Version) (p : String) :
    (st.createVersion v).2.getFile p = st.getFile p := rfl

/-- Appending a version appends exactly one row with the next id. -/
theorem createVersion_versions (st : StoreState) (v : Version) :
    (st.createVersion v).2.versions = st.versions ++ [{ v with id := st.nextVersionId }] :=
  rfl

/-! ## Well-formedness lemmas -/

/-- Keys of the files table are unchanged by a path update that keeps the keys
of the rows it touches. -/
theorem updFiles_keys {files : List File} {q : String} {u : File → File}
    (hkeys : ∀ f ∈ files, f.blobPath = q → fileKey (u f) = fileKey f) :
    (updFiles files q u).map fileKey = files.map fileKey := by
  unfold updFiles
  induction files with
  | nil => rfl
  | cons g fs ih =>
      simp only [List.map_cons]
      have hhead : fileKey (if g.blobPath = q then u g else g) = fileKey g := by
        by_cases hg : g.blobPath = q
        · rw [if_pos hg]; exact hkeys g (by simp) hg
        · rw [if_neg hg]
      rw [hhead, ih (fun f hf hq => hkeys f (by simp [hf]) hq)]

/-- Well-formedness only depends on the row keys and the file counter. -/
theorem WF_congr_keys {st st' : StoreState}
    (hkeys : st'.files.map fileKey = st.files.map fileKey)
    (hnext : st'.nextFileId = st.nextFileId) (hWF : st.WF) : st'.WF := by
  obtain ⟨hid, hpw⟩ := hWF
  constructor
  · intro g hg
    have hk : fileKey g ∈ st'.files.map fileKey := List.mem_map_of_mem _ hg
    rw [hkeys] at hk
    rcases List.mem_map.mp hk with ⟨h, hh, hkk⟩
    have hkid : h.id = g.id := congrArg Prod.snd hkk
    rw [hnext, ← hkid]
    exact hid h hh
  · rw [hkeys]; exact hpw

/-- In a well-formed table the row found at a path is the only row there. -/
theorem getFileIn_unique : ∀ {files : List File} {q : String} {g : File},
    (files.map fileKey).Pairwise KeysDistinct →
    getFileIn files q = some g → ∀ f ∈ files, f.blobPath = q → f = g := by
  intro files
  induction files with
  | nil => intro q g _ _ f hf; simp at hf
  | cons x fs ih =>
      intro q g hpw hg f hf hfq
      have hpw' : (∀ a ∈ fs, KeysDistinct (fileKey x) (fileKey a)) ∧
          List.Pairwise KeysDistinct (List.map fileKey fs) := by simpa using hpw
      by_cases hxq : x.blobPath = q
      · simp only [getFileIn, if_pos hxq] at hg
        cases hg
        rcases List.mem_cons.mp hf with rfl | hf'
        · rfl
        · exfalso
          have hk : KeysDistinct (fileKey x) (fileKey f) := hpw'.1 f hf'
          exact hk.1 (by simp [fileKey, hxq, hfq])
      · simp only [getFileIn, if_neg hxq] at hg
        rcases List.mem_cons.mp hf with rfl | hf'
        · exact absurd hfq hxq
        · exact ih hpw'.2 hg f hf' hfq

/-- Distinct paths in a well-formed table carry distinct row ids. -/
theorem WF_distinct_ids {st : StoreState} (hWF : st.WF) {g h : File}
    (hg : g ∈ st.files) (hh : h ∈ st.files) (hne : g.blobPath ≠ h.blobPath) :
    g.id ≠ h.id := by
  have hsymm : Symmetric KeysDistinct := fun a b hab => ⟨Ne.symm hab.1, Ne.symm hab.2⟩
  have hkne : fileKey g ≠ fileKey h := fun e => hne (congrArg Prod.fst e)
  exact (List.Pairwise.forall hsymm hWF.2 (List.mem_map_of_mem _ hg)
    (List.mem_map_of_mem _ hh) hkne).2

/-- Upserting preserves well-formedness. -/
theorem WF_upsertFile {st : StoreState} (file : File) (hWF : st.WF) :
    (st.upsertFile file).2.WF := by
  unfold StoreState.upsertFile
  cases hg : getFileIn st.files file.blobPath with
  | some g =>
      simp only
      refine @WF_congr_keys st _ ?_ rfl hWF
      apply updFiles_keys
      intro f hf hfq
      have hfg : f = g := getFileIn_unique hWF.2 hg f hf hfq
      have hgq : g.blobPath = file.blobPath := getFileIn_eq_path hg
      subst hfg
      simp [fileKey, hgq]
  | none =>
      simp only
      constructor
      · intro h hh
        rcases List.mem_append.mp hh with hh' | hh'
        · exact Nat.lt_succ_of_lt (hWF.1 h hh')
        · rcases List.mem_singleton.mp hh' with rfl
          exact Nat.lt_succ_self _
      · rw [List.map_append]
        refine List.pairwise_append.mpr ⟨hWF.2, List.pairwise_singleton _ _, ?_⟩
        intro a ha b hb
        rcases List.mem_map.mp ha with ⟨h, hh, rfl⟩
        rcases List.mem_singleton.mp hb with rfl
        refine ⟨?_, ?_⟩
        · exact getFileIn_eq_none hg h hh
        · exact Nat.ne_of_lt (hWF.1 h hh)

/-- Marking a file deleted preserves well-formedness. -/
theorem WF_markFileDeleted {st : StoreState} (q : String) (hWF : st.WF) :
    (st.markFileDeleted q).WF := by
  unfold StoreState.markFileDeleted
  refine @WF_congr_keys st _ ?_ rfl hWF
  exact updFiles_keys (fun f _ _ => rfl)

/-- Appending a version preserves well-formedness. -/
theorem WF_createVersion {st : StoreState} (v : Version) (hWF : st.WF) :
    (st.createVersion v).2.WF := hWF

/-! ## Scanner frame lemmas -/

/-- `handleNewFile` does not affect lookups of other paths. -/
theorem handleNewFile_getFile_other {hash : String → String} {fl : Faults}
    {b : BlobEntry} {st : StoreState} {p : String} (hne : b.fullPath ≠ p) :
    (handleNewFile hash fl b st).getFile p = st.getFile p := by
  unfold handleNewFile
  split
  · rfl
  · split
    · rfl
    · split
      · exact upsertFile_getFile_other hne
      · rw [createVersion_getFile]
        exact upsertFile_getFile_other hne

/-- `handleModifiedFile` does not affect lookups of paths other than the
existing row's. -/
theorem handleModifiedFile_getFile_other {hash : String → String} {fl : Faults}
    {b : BlobEntry} {existing : File} {st : StoreState} {p : String}
    (hne : existing.blobPath ≠ p) :
    (handleModifiedFile hash fl b existing st).getFile p = st.getFile p := by
  unfold handleModifiedFile
  split
  · rfl
  · split
    · split
      · rfl
      · exact upsertFile_getFile_other hne
    · split
      · rfl
      · split
        · exact createVersion_getFile _ _ _
        · have h1 := @upsertFile_getFile_other
            (st.createVersion (modifiedVersionRow hash b existing.id)).2
            { existing with etag := b.etag, contentHash := hash b.content,
                            lastModified := b.lastModified } p hne
          rw [h1, createVersion_getFile]

/-- `processBlob` does not affect lookups of paths other than the blob's. -/
theorem processBlob_getFile_other {hash : String → String} {fl : Faults}
    {b : BlobEntry} {st : StoreState} {p : String} (hne : b.fullPath ≠ p) :
    (processBlob hash fl b st).getFile p = st.getFile p := by
  unfold processBlob
  cases hget : st.getFile b.fullPath with
  | none => exact handleNewFile_getFile_other hne
  | some existing =>
      have hpath : existing.blobPath = b.fullPath := getFileIn_eq_path hget
      dsimp only
      by_cases hdel : existing.isDeleted
      · rw [if_pos hdel]
        exact handleNewFile_getFile_other hne
      · rw [if_neg hdel]
        split
        · rfl
        · exact handleModifiedFile_getFile_other (hpath ▸ hne)

/-- A skipped row (already deleted, or seen in the listing) leaves the state
untouched. -/
theorem checkDeletedOne_skip {fl : Faults} {seen : List String} {st : StoreState}
    {g : File} (h : g.isDeleted = true ∨ g.blobPath ∈ seen) :
    checkDeletedOne fl seen st g = st := by
  unfold checkDeletedOne
  rcases h with h | h
  · rw [if_pos h]
  · by_cases hd : g.isDeleted
    · rw [if_pos hd]
    · rw [if_neg hd, if_pos h]

/-- `checkDeletedOne` does not affect lookups of paths other than the row's. -/
theorem checkDeletedOne_getFile_other {fl : Faults} {seen : List String}
    {st : StoreState} {g : File} {p : String} (hne : g.blobPath ≠ p) :
    (checkDeletedOne fl seen st g).getFile p = st.getFile p := by
  unfold checkDeletedOne
  split
  · rfl
  · split
    · rfl
    · split
      · rfl
      · split
        · rfl
        · split
          · exact createVersion_getFile _ _ _
          · rw [markFileDeleted_getFile_other (Ne.symm hne), createVersion_getFile]

/-- `checkDeletedOne` only ever appends versions of the row it inspects. -/
theorem checkDeletedOne_versionsFor_other {fl : Faults} {seen : List String}
    {st : StoreState} {g : File} {i : Nat} (hne : g.id ≠ i) :
    versionsFor (checkDeletedOne fl seen st g).versions i =
      versionsFor st.versions i := by
  unfold checkDeletedOne
  split
  · rfl
  · split
    · rfl
    · split
      · rfl
      · split
        · rfl
        · split
          · rw [createVersion_versions]
            exact versionsFor_append_other hne
          · rw [(markFileDeleted_versions _ _).1, createVersion_versions]
            exact versionsFor_append_other hne

/-! ## Scanner well-formedness preservation -/

/-- `handleNewFile` preserves well-formedness. -/
theorem WF_handleNewFile {hash : String → String} {fl : Faults} {b : BlobEntry}
    {st : StoreState} (hWF : st.WF) : (handleNewFile hash fl b st).WF := by
  unfold handleNewFile
  split
  · exact hWF
  · split
    · exact hWF
    · split
      · exact WF_upsertFile _ hWF
      · exact WF_createVersion _ (WF_upsertFile _ hWF)

/-- `handleModifiedFile` preserves well-formedness. -/
theorem WF_handleModifiedFile {hash : String → String} {fl : Faults}
    {b : BlobEntry} {existing : File} {st : StoreState} (hWF : st.WF) :
    (handleModifiedFile hash fl b existing st).WF := by
  unfold handleModifiedFile
  split
  · exact hWF
  · split
    · split
      · exact hWF
      · exact WF_upsertFile _ hWF
    · split
      · exact hWF
      · split
        · exact WF_createVersion _ hWF
        · exact WF_upsertFile _ (WF_createVersion _ hWF)

/-- `processBlob` preserves well-formedness. -/
theorem WF_processBlob {hash : String → String} {fl : Faults} {b : BlobEntry}
    {st : StoreState} (hWF : st.WF) : (processBlob hash fl b st).WF := by
  unfold processBlob
  cases st.getFile b.fullPath with
  | none => exact WF_handleNewFile hWF
  | some existing =>
      dsimp only
      split
      · exact WF_handleNewFile hWF
      · split
        · exact hWF
        · exact WF_handleModifiedFile hWF

/-- `checkDeletedOne` preserves well-formedness. -/
theorem WF_checkDeletedOne {fl : Faults} {seen : List String} {st : StoreState}
    {g : File} (hWF : st.WF) : (checkDeletedOne fl seen st g).WF := by
  unfold checkDeletedOne
  split
  · exact hWF
  · split
    · exact hWF
    · split
      · exact hWF
      · split
        · exact hWF
        · split
          · exact WF_createVersion _ hWF
          · exact WF_markFileDeleted _ (WF_createVersion _ hWF)

/-! ## Upsert outcome lemmas -/

/-- Upserting over an existing row rewrites exactly that row in the table
(keeping its real id); the returned `File` carries the id the fix-up resolved,
which for `file.ID == 0` is the connection's stale `last_insert_rowid`
whenever that is positive. -/
theorem upsertFile_update {st : StoreState} {file g : File}
    (hg : getFileIn st.files file.blobPath = some g) :
    st.upsertFile file =
      ({ file with id :=
           if file.id == 0 then
             (if st.lastInsertRowId > 0 then st.lastInsertRowId else g.id)
           else file.id },
       { st with files := updFiles st.files file.blobPath fun _ => { file with id := g.id } }) := by
  unfold StoreState.upsertFile
  rw [hg]

/-- Upserting a new path appends the row with the next id (which the fix-up
then reads back correctly, the insert being genuine). -/
theorem upsertFile_insert {st : StoreState} {file : File}
    (hnone : getFileIn st.files file.blobPath = none) (hid0 : file.id = 0) :
    st.upsertFile file =
      ({ file with id := st.nextFileId },
       { st with files := st.files ++ [{ file with id := st.nextFileId }],
                 nextFileId := st.nextFileId + 1,
                 lastInsertRowId := st.nextFileId }) := by
  unfold StoreState.upsertFile
  rw [hnone]
  simp [hid0]

/-- Lookup of the upserted path after an update. -/
theorem upsertFile_getFile_same_update {st : StoreState} {file g : File}
    (hg : getFileIn st.files file.blobPath = some g) :
    (st.upsertFile file).2.getFile file.blobPath = some { file with id := g.id } := by
  rw [upsertFile_update hg]
  have h := @getFileIn_updFiles_same st.files file.blobPath
    (fun _ => { file with id := g.id }) (fun f _ => rfl)
  show getFileIn (updFiles st.files file.blobPath fun _ => { file with id := g.id })
      file.blobPath = _
  rw [h, hg]
  rfl

/-- Lookup of the upserted path after an insert (the inserted table row always
has the next id, whatever the fix-up resolved). -/
theorem upsertFile_getFile_same_insert {st : StoreState} {file : File}
    (hnone : getFileIn st.files file.blobPath = none) :
    (st.upsertFile file).2.getFile file.blobPath = some { file with id := st.nextFileId } := by
  unfold StoreState.upsertFile StoreState.getFile
  rw [hnone]
  exact getFileIn_append_self hnone

/-! ## C5: metadata-only update -/

/-- C5: a tracked, non-deleted file observed with a changed change token but an
unchanged content hash gets only its token and timestamp fields rewritten: no
version is appended (versions and the version counter are untouched), the row
keeps its content hash and `is_deleted` flag (the updated row is literally the
old row with only `etag` and `lastModified` replaced), and no other row is
affected. -/
theorem processBlob_metadata_only (hash : String → String) (b : BlobEntry)
    (existing : File) (st : StoreState)
    (hget : st.getFile b.fullPath = some existing)
    (hdel : existing.isDeleted = false)
    (hetag : existing.etag ≠ b.etag)
    (hhash : hash b.content = existing.contentHash)
    (hfetch : b.fetchOk = true) :
    (processBlob hash Faults.noFaults b st).versions = st.versions ∧
    (processBlob hash Faults.noFaults b st).nextVersionId = st.nextVersionId ∧
    (processBlob hash Faults.noFaults b st).getFile b.fullPath =
      some { existing with etag := b.etag, lastModified := b.lastModified } ∧
    (∀ q, q ≠ b.fullPath →
      (processBlob hash Faults.noFaults b st).getFile q = st.getFile q) := by
  have hpath : existing.blobPath = b.fullPath := getFileIn_eq_path hget
  have hrec : ({ existing with etag := b.etag, lastModified := b.lastModified } : File).blobPath
      = existing.blobPath := rfl
  have hform : processBlob hash Faults.noFaults b st =
      (st.upsertFile { existing with etag := b.etag, lastModified := b.lastModified }).2 := by
    unfold processBlob
    rw [hget]
    dsimp only
    rw [if_neg (by simp [hdel]), if_neg hetag]
    unfold handleModifiedFile
    rw [if_neg (by simp [hfetch]), if_pos hhash, if_neg (by simp [Faults.noFaults])]
  have hget2 : getFileIn st.files
      ({ existing with etag := b.etag, lastModified := b.lastModified } : File).blobPath
      = some existing := by
    rw [hrec, hpath]; exact hget
  refine ⟨?_, ?_, ?_, ?_⟩
  · rw [hform]; exact (upsertFile_versions _ _).1
  · rw [hform]; exact (upsertFile_versions _ _).2
  · rw [hform, ← hpath, ← hrec]
    exact upsertFile_getFile_same_update hget2
  · intro q hq
    rw [hform]
    exact upsertFile_getFile_other (by rw [hrec, hpath]; exact Ne.symm hq)

/-- Witness for C5 at a concrete store and blob. -/
theorem processBlob_metadata_only_witness :
    c5File.etag ≠ c5Blob.etag ∧ idHash c5Blob.content = c5File.contentHash ∧
    (processBlob idHash Faults.noFaults c5Blob c5Store).versions = c5Store.versions ∧
    (processBlob idHash Faults.noFaults c5Blob c5Store).getFile c5Blob.fullPath =
      some { c5File with etag := c5Blob.etag, lastModified := c5Blob.lastModified } :=
  ⟨by decide, by decide,
   (processBlob_metadata_only idHash c5Blob c5File c5Store (by decide) (by decide)
     (by decide) (by decide) (by decide)).1,
   (processBlob_metadata_only idHash c5Blob c5File c5Store (by decide) (by decide)
     (by decide) (by decide) (by decide)).2.2.1⟩

/-! ## C10: the deletion path's version record -/

/-- C10: for a tracked, non-deleted file absent from the listing, the deletion
path appends exactly one version with empty content whose content hash is the
latest stored version's hash (or the empty string if the file has no stored
versions), and marks the row deleted; if fetching the latest version fails,
the file is skipped entirely — no version is appended and the flag is not
written. -/
theorem checkDeletedOne_deletion_record (seen : List String) (st : StoreState)
    (f : File) (hdel : f.isDeleted = false) (hseen : f.blobPath ∉ seen) :
    (∀ fl : Faults, fl.latestV f.id = true → checkDeletedOne fl seen st f = st) ∧
    (checkDeletedOne Faults.noFaults seen st f).versions =
      st.versions ++
        [{ id := st.nextVersionId, fileId := f.id, content := "",
           contentHash := (match st.getLatestVersion f.id with
                           | some lv => lv.contentHash
                           | none => ""),
           changeType := ChangeType.deleted, blobETag := "", blobLastModified := 0 }] ∧
    (checkDeletedOne Faults.noFaults seen st f).getFile f.blobPath =
      (st.getFile f.blobPath).map (fun h => { h with isDeleted := true }) := by
  have hform : checkDeletedOne Faults.noFaults seen st f =
      ((st.createVersion (deletedVersionRow st f.id)).2).markFileDeleted f.blobPath := by
    unfold checkDeletedOne
    rw [if_neg (by simp [hdel]), if_neg hseen, if_neg (by simp [Faults.noFaults]),
      if_neg (by simp [Faults.noFaults]), if_neg (by simp [Faults.noFaults])]
  refine ⟨?_, ?_, ?_⟩
  · intro fl hlv
    unfold checkDeletedOne
    rw [if_neg (by simp [hdel]), if_neg hseen, if_pos hlv]
  · rw [hform, (markFileDeleted_versions _ _).1, createVersion_versions]
    rfl
  · rw [hform, markFileDeleted_getFile_same, createVersion_getFile]

/-- Witness for C10 at a concrete store with one stored version. -/
theorem checkDeletedOne_deletion_record_witness :
    c10File.isDeleted = false ∧ "a/c/f.txt" ∉ (["other/path"] : List String) ∧
    (checkDeletedOne Faults.noFaults ["other/path"] c10Store c10File).versions =
      c10Store.versions ++ [⟨2, 1, "", "h", ChangeType.deleted, "", 0⟩] :=
  ⟨by decide, by decide,
   ((checkDeletedOne_deletion_record ["other/path"] c10Store c10File (by decide)
     (by decide)).2.1).trans (by decide)⟩

/-! ## C1: a failed scope manufactures deletions -/

/-- C1 (evaluation at the failing input): in a cycle in which every configured
scope fails to enumerate (`c1Accounts` is one storage account with `ok =
false`), the tracked, non-deleted file `acct/cfg/app.yaml` — whose canonical
path belongs to that failed scope — is nevertheless marked deleted and receives
an appended version with classification `deleted`: `Client.ListBlobs` swallows
the scope failure and returns a listing that simply lacks the scope's blobs, so
`checkDeleted` treats them as gone. -/
theorem sync_failed_scope_marks_deleted :
    (c1Accounts.all fun a => !a.ok) = true ∧
    c1Store.getFile "acct/cfg/app.yaml" = some c1File ∧
    c1File.isDeleted = false ∧
    ((sync idHash Faults.noFaults c1Accounts c1Store).getFile
        "acct/cfg/app.yaml").map File.isDeleted = some true ∧
    (sync idHash Faults.noFaults c1Accounts c1Store).versions.map Version.changeType
      = [ChangeType.created, ChangeType.deleted] := by
  decide

/-! ## C3: the upsert/append pair is not atomic -/

/-- C3 (evaluation at the failing input): running a cycle over an empty ledger
with one new blob while the `CreateVersion` insert fails (after `UpsertFile`
already committed) leaves an observable state in which the file row claims
content hash `"x: 1\n"` while the versions table is empty — a file row with no
matching version, i.e. a partially applied `(upsertFile, appendVersion)` pair.
The two statements run as separate autocommit SQL statements with no enclosing
transaction. -/
theorem sync_partial_pair_observable :
    (sync idHash c3Faults c3Accounts StoreState.empty).getFile c3Blob.fullPath =
      some ⟨1, "acct/cfg/new.yaml", "e1", "x: 1\n", 0, false⟩ ∧
    (sync idHash c3Faults c3Accounts StoreState.empty).versions = [] := by
  decide

/-! ## C9: restore never writes the ledger -/

/-- C9: the restore handler leaves the ledger untouched in every case — its
resulting store is the input store, so no version is appended and no file row
is modified; it answers `NotFound` (and uploads nothing) when no version with
the requested id exists; and on success it uploads exactly the looked-up
version's content bytes at the requested path. -/
theorem handleRestore_reads_only (st : StoreState) (path : String)
    (versionId : Option Nat) (gvf upOk : Bool) :
    (handleRestore st path versionId gvf upOk).store = st ∧
    (path ≠ "" → gvf = false →
      ∀ vid, versionId = some vid → st.getVersion vid = none →
        (handleRestore st path versionId gvf upOk).status = RestoreStatus.notFound ∧
        (handleRestore st path versionId gvf upOk).upload = none) ∧
    (path ≠ "" → gvf = false → upOk = true →
      ∀ vid v, versionId = some vid → st.getVersion vid = some v →
        (handleRestore st path versionId gvf upOk).status = RestoreStatus.ok ∧
        (handleRestore st path versionId gvf upOk).upload = some (path, v.content)) := by
  refine ⟨?_, ?_, ?_⟩
  · by_cases hp : path = ""
    · simp [handleRestore, hp]
    · cases versionId with
      | none => simp [handleRestore, hp]
      | some vid =>
          by_cases hg : gvf
          · simp [handleRestore, hp, hg]
          · cases hv : st.getVersion vid with
            | none => simp [handleRestore, hp, hg, hv]
            | some v =>
                by_cases hu : upOk <;> simp [handleRestore, hp, hg, hv, hu]
  · intro hp hg vid hvid hnone
    subst hvid
    constructor <;> simp [handleRestore, hp, hg, hnone]
  · intro hp hg hu vid v hvid hsome
    subst hvid
    constructor <;> simp [handleRestore, hp, hg, hu, hsome]

/-- Witness for C9: an unknown version id yields `NotFound` with the ledger
unchanged, and a known one uploads its content. -/
theorem handleRestore_reads_only_witness :
    (handleRestore c9Store "a/c/f.txt" (some 7) false true).store = c9Store ∧
    (handleRestore c9Store "a/c/f.txt" (some 7) false true).status =
      RestoreStatus.notFound ∧
    (handleRestore c9Store "a/c/f.txt" (some 1) false true).upload =
      some ("a/c/f.txt", "hello") :=
  ⟨(handleRestore_reads_only c9Store "a/c/f.txt" (some 7) false true).1,
   ((handleRestore_reads_only c9Store "a/c/f.txt" (some 7) false true).2.1
     (by decide) rfl 7 rfl (by decide)).1,
   ((handleRestore_reads_only c9Store "a/c/f.txt" (some 1) false true).2.2
     (by decide) rfl rfl 1 ⟨1, 1, "hello", "h", ChangeType.created, "e1", 0⟩ rfl
     (by decide)).2⟩

/-! ## C6 machinery: state after a fault-free cycle -/

/-- After a fault-free `processBlob` of a fetchable blob, the ledger holds a
non-deleted row at the blob's canonical path carrying the blob's token. -/
theorem processBlob_presence (hash : String → String) (b : BlobEntry) (st : StoreState)
    (hfetch : b.fetchOk = true) :
    ∃ g, (processBlob hash Faults.noFaults b st).getFile b.fullPath = some g ∧
      g.isDeleted = false ∧ g.etag = b.etag := by
  unfold processBlob
  cases hget : st.getFile b.fullPath with
  | none =>
      refine ⟨{ newFileRow hash b with id := st.nextFileId }, ?_, rfl, rfl⟩
      unfold handleNewFile
      rw [if_neg (by simp [hfetch]), if_neg (by simp [Faults.noFaults]),
        if_neg (by simp [Faults.noFaults]), createVersion_getFile]
      exact upsertFile_getFile_same_insert hget
  | some existing =>
      dsimp only
      by_cases hdel : existing.isDeleted
      · rw [if_pos hdel]
        refine ⟨{ newFileRow hash b with id := existing.id }, ?_, rfl, rfl⟩
        unfold handleNewFile
        rw [if_neg (by simp [hfetch]), if_neg (by simp [Faults.noFaults]),
          if_neg (by simp [Faults.noFaults]), createVersion_getFile]
        exact upsertFile_getFile_same_update hget
      · rw [if_neg hdel]
        by_cases hetag : existing.etag = b.etag
        · rw [if_pos hetag]
          exact ⟨existing, hget, by simpa using hdel, hetag⟩
        · rw [if_neg hetag]
          unfold handleModifiedFile
          rw [if_neg (by simp [hfetch])]
          have hexpath : existing.blobPath = b.fullPath := getFileIn_eq_path hget
          by_cases hh : hash b.content = existing.contentHash
          · rw [if_pos hh, if_neg (by simp [Faults.noFaults])]
            refine ⟨{ existing with etag := b.etag, lastModified := b.lastModified },
              ?_, by simpa using hdel, rfl⟩
            have h2 : getFileIn st.files
                ({ existing with etag := b.etag, lastModified := b.lastModified } : File).blobPath
                = some existing := by
              show getFileIn st.files existing.blobPath = some existing
              rw [hexpath]; exact hget
            have h3 := upsertFile_getFile_same_update h2
            rw [← hexpath]
            exact h3
          · rw [if_neg hh, if_neg (by simp [Faults.noFaults]),
              if_neg (by simp [Faults.noFaults])]
            refine ⟨{ existing with
                        etag := b.etag, contentHash := hash b.content,
                        lastModified := b.lastModified }, ?_, by simpa using hdel, rfl⟩
            have h2 : getFileIn
                ((st.createVersion (modifiedVersionRow hash b existing.id)).2).files
                ({ existing with
                     etag := b.etag, contentHash := hash b.content,
                     lastModified := b.lastModified } : File).blobPath
                = some existing := by
              show getFileIn st.files existing.blobPath = some existing
              rw [hexpath]; exact hget
            have h3 := upsertFile_getFile_same_update h2
            rw [← hexpath]
            exact h3

/-- After the classification fold of a fault-free cycle, every fetchable listed
blob has a non-deleted row carrying its token. -/
theorem syncFold_presence (hash : String → String) :
    ∀ (blobs : List BlobEntry) (st : StoreState),
      (blobs.map BlobEntry.fullPath).Nodup →
      ∀ b ∈ blobs, b.fetchOk = true →
        ∃ g, (blobs.foldl (fun s x => processBlob hash Faults.noFaults x s) st).getFile
            b.fullPath = some g ∧ g.isDeleted = false ∧ g.etag = b.etag := by
  intro blobs
  induction blobs with
  | nil => intro st _ b hb; simp at hb
  | cons x rest ih =>
      intro st hnd b hb hfetch
      have hnd2 : (x.fullPath ∉ rest.map BlobEntry.fullPath) ∧
          (rest.map BlobEntry.fullPath).Nodup := by
        simpa using hnd
      simp only [List.foldl_cons]
      rcases List.mem_cons.mp hb with rfl | hbr
      · obtain ⟨g, hg, hgdel, hgtag⟩ := processBlob_presence hash b st hfetch
        refine foldl_induction (fun s x => processBlob hash Faults.noFaults x s)
          (fun s => ∃ g, s.getFile b.fullPath = some g ∧ g.isDeleted = false ∧
            g.etag = b.etag) rest _ ⟨g, hg, hgdel, hgtag⟩ ?_
        intro s r hr hP
        obtain ⟨g', hg', h1, h2⟩ := hP
        have hrne : r.fullPath ≠ b.fullPath := by
          intro e
          exact hnd2.1 (e ▸ List.mem_map_of_mem _ hr)
        exact ⟨g', by rw [processBlob_getFile_other hrne]; exact hg', h1, h2⟩
      · exact ih (processBlob hash Faults.noFaults x st) hnd2.2 b hbr hfetch

/-- `checkDeletedOne` leaves lookups of seen paths alone. -/
theorem checkDeletedOne_getFile_seen {fl : Faults} {seen : List String}
    {s : StoreState} {g : File} {p : String} (hp : p ∈ seen) :
    (checkDeletedOne fl seen s g).getFile p = s.getFile p := by
  by_cases hd : g.isDeleted
  · rw [checkDeletedOne_skip (Or.inl hd)]
  · by_cases hs : g.blobPath ∈ seen
    · rw [checkDeletedOne_skip (Or.inr hs)]
    · exact checkDeletedOne_getFile_other (fun e => hs (e ▸ hp))

/-- `checkDeleted` leaves lookups of seen paths alone. -/
theorem checkDeleted_getFile_seen {fl : Faults} {seen : List String}
    {s : StoreState} {p : String} (hp : p ∈ seen) :
    (checkDeleted fl seen s).getFile p = s.getFile p := by
  unfold checkDeleted
  exact foldl_induction (checkDeletedOne fl seen)
    (fun s' => s'.getFile p = s.getFile p) s.listFiles s rfl
    (fun s' g _ h => by
      show (checkDeletedOne fl seen s' g).getFile p = s.getFile p
      rw [checkDeletedOne_getFile_seen hp]
      exact h)

/-- Fault-free `checkDeletedOne` either skips a row (it is already deleted or
seen) or tombstones exactly that row's path. -/
theorem checkDeletedOne_noFaults_shape (seen : List String) (s : StoreState)
    (r : File) :
    ((r.isDeleted = true ∨ r.blobPath ∈ seen) ∧
      checkDeletedOne Faults.noFaults seen s r = s) ∨
    (r.isDeleted = false ∧ r.blobPath ∉ seen ∧
      (checkDeletedOne Faults.noFaults seen s r).files =
        updFiles s.files r.blobPath (fun f => { f with isDeleted := true })) := by
  by_cases hd : r.isDeleted
  · exact Or.inl ⟨Or.inl hd, checkDeletedOne_skip (Or.inl hd)⟩
  · by_cases hs : r.blobPath ∈ seen
    · exact Or.inl ⟨Or.inr hs, checkDeletedOne_skip (Or.inr hs)⟩
    · refine Or.inr ⟨by simpa using hd, hs, ?_⟩
      unfold checkDeletedOne
      rw [if_neg hd, if_neg hs, if_neg (by simp [Faults.noFaults]),
        if_neg (by simp [Faults.noFaults]), if_neg (by simp [Faults.noFaults])]
      rfl

/-- After the fault-free deletion walk, every row is either tombstoned or was
seen in the listing — provided the walked snapshot covers the not-yet-deleted,
unseen rows. -/
theorem checkDeletedFold_marks_unseen (seen : List String) :
    ∀ (rows : List File) (s : StoreState),
      (∀ g ∈ s.files, g.isDeleted = true ∨ g.blobPath ∈ seen ∨
        ∃ r ∈ rows, r.blobPath = g.blobPath ∧ r.isDeleted = false) →
      ∀ g ∈ (rows.foldl (checkDeletedOne Faults.noFaults seen) s).files,
        g.isDeleted = true ∨ g.blobPath ∈ seen := by
  intro rows
  induction rows with
  | nil =>
      intro s hinv g hg
      rcases hinv g hg with h | h | ⟨r, hr, _⟩
      · exact Or.inl h
      · exact Or.inr h
      · simp at hr
  | cons r rows ih =>
      intro s hinv g hg
      simp only [List.foldl_cons] at hg
      refine ih (checkDeletedOne Faults.noFaults seen s r) ?_ g hg
      intro g' hg'
      rcases checkDeletedOne_noFaults_shape seen s r with ⟨hcond, hsame⟩ |
        ⟨hrdel, hrseen, hupd⟩
      · rw [hsame] at hg'
        rcases hinv g' hg' with h | h | ⟨r0, hr0, hpath, hdel0⟩
        · exact Or.inl h
        · exact Or.inr (Or.inl h)
        · rcases List.mem_cons.mp hr0 with rfl | hr0'
          · rcases hcond with hc | hc
            · rw [hdel0] at hc; cases hc
            · exact Or.inr (Or.inl (hpath ▸ hc))
          · exact Or.inr (Or.inr ⟨r0, hr0', hpath, hdel0⟩)
      · rw [hupd] at hg'
        unfold updFiles at hg'
        rcases List.mem_map.mp hg' with ⟨h0, hh0, heq⟩
        by_cases hpr : h0.blobPath = r.blobPath
        · rw [if_pos hpr] at heq
          exact Or.inl (by rw [← heq])
        · rw [if_neg hpr] at heq
          subst heq
          rcases hinv h0 hh0 with h | h | ⟨r0, hr0, hpath, hdel0⟩
          · exact Or.inl h
          · exact Or.inr (Or.inl h)
          · rcases List.mem_cons.mp hr0 with rfl | hr0'
            · exact absurd hpath.symm hpr
            · exact Or.inr (Or.inr ⟨r0, hr0', hpath, hdel0⟩)

/-- After a fault-free `checkDeleted`, every row is tombstoned or seen. -/
theorem checkDeleted_marks_unseen (seen : List String) (s : StoreState) :
    ∀ g ∈ (checkDeleted Faults.noFaults seen s).files,
      g.isDeleted = true ∨ g.blobPath ∈ seen := by
  unfold checkDeleted
  refine checkDeletedFold_marks_unseen seen s.listFiles s ?_
  intro g hg
  by_cases hd : g.isDeleted
  · exact Or.inl hd
  · by_cases hs : g.blobPath ∈ seen
    · exact Or.inr (Or.inl hs)
    · exact Or.inr (Or.inr ⟨g, hg, rfl, by simpa using hd⟩)

/-- A blob whose fetch fails, or whose row already carries its token, is a
no-op for `processBlob`. -/
theorem processBlob_noop {hash : String → String} {fl : Faults} {b : BlobEntry}
    {s : StoreState}
    (h : b.fetchOk = false ∨
      ∃ g, s.getFile b.fullPath = some g ∧ g.isDeleted = false ∧ g.etag = b.etag) :
    processBlob hash fl b s = s := by
  unfold processBlob
  rcases h with hf | ⟨g, hg, hd, he⟩
  · cases hget : s.getFile b.fullPath with
    | none => unfold handleNewFile; rw [if_pos (by simp [hf])]
    | some ex =>
        dsimp only
        split
        · unfold handleNewFile; rw [if_pos (by simp [hf])]
        · split
          · rfl
          · unfold handleModifiedFile; rw [if_pos (by simp [hf])]
  · rw [hg]; dsimp only; rw [if_neg (by simp [hd]), if_pos he]

/-- A state in which every row is tombstoned or seen passes `checkDeleted`
unchanged. -/
theorem checkDeleted_id {fl : Faults} {seen : List String} {s : StoreState}
    (h : ∀ g ∈ s.files, g.isDeleted = true ∨ g.blobPath ∈ seen) :
    checkDeleted fl seen s = s := by
  unfold checkDeleted
  exact foldl_fixed _ s.listFiles s (fun g hg => checkDeletedOne_skip (h g hg))

/-- A fault-free cycle is idempotent on the whole ledger state, provided the
remote listing does not repeat a canonical path. -/
theorem sync_idempotent (hash : String → String) (accounts : List AccountListing)
    (st : StoreState)
    (hnd : ((clientListBlobs accounts).map BlobEntry.fullPath).Nodup) :
    sync hash Faults.noFaults accounts (sync hash Faults.noFaults accounts st) =
      sync hash Faults.noFaults accounts st := by
  have hsync : ∀ s : StoreState, sync hash Faults.noFaults accounts s =
      checkDeleted Faults.noFaults
        ((clientListBlobs accounts).map BlobEntry.fullPath)
        ((clientListBlobs accounts).foldl
          (fun s' b => processBlob hash Faults.noFaults b s') s) :=
    fun s => rfl
  have hpres : ∀ b ∈ clientListBlobs accounts, b.fetchOk = true →
      ∃ g, (sync hash Faults.noFaults accounts st).getFile b.fullPath = some g ∧
        g.isDeleted = false ∧ g.etag = b.etag := by
    intro b hb hf
    obtain ⟨g, hg, h1, h2⟩ := syncFold_presence hash (clientListBlobs accounts) st hnd b hb hf
    refine ⟨g, ?_, h1, h2⟩
    rw [hsync st, checkDeleted_getFile_seen (List.mem_map_of_mem _ hb)]
    exact hg
  have hdelmark : ∀ g ∈ (sync hash Faults.noFaults accounts st).files,
      g.isDeleted = true ∨ g.blobPath ∈ (clientListBlobs accounts).map BlobEntry.fullPath := by
    rw [hsync st]
    exact checkDeleted_marks_unseen _ _
  rw [hsync (sync hash Faults.noFaults accounts st)]
  have hfold : (clientListBlobs accounts).foldl
      (fun s' b => processBlob hash Faults.noFaults b s')
      (sync hash Faults.noFaults accounts st) = sync hash Faults.noFaults accounts st := by
    apply foldl_fixed
    intro b hb
    apply processBlob_noop
    cases hf : b.fetchOk with
    | false => exact Or.inl rfl
    | true => exact Or.inr (hpres b hb hf)
  rw [hfold]
  exact checkDeleted_id hdelmark

/-- C6: running a second scan cycle over an unchanged remote listing and
unchanged object contents appends zero new versions — the whole ledger state is
unchanged, so in particular the versions table is. -/
theorem sync_twice_appends_nothing (hash : String → String)
    (accounts : List AccountListing) (st : StoreState)
    (hnd : ((clientListBlobs accounts).map BlobEntry.fullPath).Nodup) :
    (sync hash Faults.noFaults accounts
        (sync hash Faults.noFaults accounts st)).versions =
      (sync hash Faults.noFaults accounts st).versions := by
  rw [sync_idempotent hash accounts st hnd]

/-- Witness for C6 at a concrete ledger and listing. -/
theorem sync_twice_appends_nothing_witness :
    ((clientListBlobs c6Accounts).map BlobEntry.fullPath).Nodup ∧
    (sync idHash Faults.noFaults c6Accounts
        (sync idHash Faults.noFaults c6Accounts c6Store)).versions =
      (sync idHash Faults.noFaults c6Accounts c6Store).versions :=
  ⟨by decide, sync_twice_appends_nothing idHash c6Accounts c6Store (by decide)⟩

/-! ## C4: the resurrection path and the stale id fix-up -/

/-- The deletion walk leaves a row whose path was seen — and that row's version
list — untouched (well-formedness keeps other snapshot rows' ids distinct). -/
theorem checkDeleted_preserves_file {fl : Faults} {seen : List String}
    {sC : StoreState} {p : String} {row : File}
    (hWFC : sC.WF) (hseen : p ∈ seen) (hget : sC.getFile p = some row) :
    (checkDeleted fl seen sC).getFile p = some row ∧
    versionsFor (checkDeleted fl seen sC).versions row.id =
      versionsFor sC.versions row.id := by
  have hrowmem : row ∈ sC.files := getFileIn_mem hget
  have hrowpath : row.blobPath = p := getFileIn_eq_path hget
  unfold checkDeleted
  refine foldl_induction (checkDeletedOne fl seen)
    (fun s => s.getFile p = some row ∧
      versionsFor s.versions row.id = versionsFor sC.versions row.id)
    sC.listFiles sC ⟨hget, rfl⟩ ?_
  intro s g hg hP
  by_cases hgp : g.blobPath = p
  · rw [checkDeletedOne_skip (Or.inr (by rw [hgp]; exact hseen))]
    exact hP
  · have hgid : g.id ≠ row.id :=
      WF_distinct_ids hWFC hg hrowmem (by rw [hrowpath]; exact hgp)
    exact ⟨by rw [checkDeletedOne_getFile_other hgp]; exact hP.1,
      by rw [checkDeletedOne_versionsFor_other hgid]; exact hP.2⟩

/-- C4 (evaluation at the failing input): a tombstoned file (`c4File`, row id
1) reappears upstream.  `handleNewFile` passes a `File` with `ID == 0` to
`UpsertFile`, whose insert takes the `ON CONFLICT DO UPDATE` branch; the id
fix-up then reads `LastInsertId()`, i.e. the connection's stale
`last_insert_rowid` — here 2, the rowid of the `deleted` version insert of the
previous cycle — and, that value being positive, never reaches the `GetFile`
fallback the code's own comment intends for the update case.  The cycle does
end with `is_deleted = false`, but the single appended `created` version
carries `file_id = 2`, not 1: the resurrected file gains no new version at
all, contrary to the claim (and to the ledger invariant that
`Version.file_id` references the owning file). -/
theorem sync_resurrection_wrong_file_id :
    c4File.isDeleted = true ∧
    c4Store.getFile c4Blob.fullPath = some c4File ∧
    c4File.id = 1 ∧ c4Store.lastInsertRowId = 2 ∧
    ((sync idHash Faults.noFaults c4Accounts c4Store).getFile c4Blob.fullPath).map
      File.isDeleted = some false ∧
    versionsFor (sync idHash Faults.noFaults c4Accounts c4Store).versions c4File.id =
      versionsFor c4Store.versions c4File.id ∧
    (sync idHash Faults.noFaults c4Accounts c4Store).versions.map
      (fun v => (v.fileId, v.changeType)) =
      [(1, ChangeType.created), (1, ChangeType.deleted), (2, ChangeType.created)] := by
  decide
